import Mathlib

/-!
# Action binding and dispatch (`src/app/action.cpp`)

A shallow embedding of the action engine of the dashboard application:

* `ActionEventFilter.eventFilter` – the global key-event interceptor,
* `Action.set` – the reconfiguration protocol of one action,
* `Action.fileChanged` – the GPIO change handler installed by the `Action`
  constructor, together with the watcher's signal mask and the deferred
  unmask it schedules,
* `ActionDialog.showEvent` / `ActionDialog.closeEvent` – entering and leaving
  capture mode.

Pointers to `Action` objects are modelled by natural numbers (object identity),
`QString` by `Option String` (`none` is the null string), bytes by natural
numbers, and user callbacks by the trace of their invocations.
-/

namespace Dash

/-! ## Qt value types -/

/-- A `QString`; `none` is the null string, `some ""` the empty non-null one. -/
abbrev QString := Option String

/-- The call `QString::startsWith(p)`; a null string starts with nothing non-empty. -/
def QString.startsWith (s : QString) (p : String) : Bool :=
  match s with
  | none => false
  | some str => p.toList.isPrefixOf str.toList

/-- The call `QString::contains(c)`. -/
def QString.contains (s : QString) (c : Char) : Bool :=
  match s with
  | none => false
  | some str => str.toList.contains c

/-- The call `QString::isNull()`. -/
def QString.isNull (s : QString) : Bool :=
  match s with
  | none => true
  | some _ => false

/-- The text of a `QString` as used by `QString::arg` and `QKeySequence::fromString`. -/
def QString.text (s : QString) : String :=
  match s with
  | none => ""
  | some str => str

/-- A `QKeySequence`: the list of its key codes; `QKeySequence()` is `[]`.
Qt key codes are non-negative `int`s. -/
abbrev QKeySequence := List Nat

/-- The operator `QKeySequence::operator[]`: an unused slot reads as `0`. -/
def QKeySequence.at (s : QKeySequence) (i : Nat) : Int :=
  ((s.getD i 0 : Nat) : Int)

/-- The state handed to an action's callback. -/
inductive ActionState where
  | Activated
  | Deactivated
  | Triggered
  deriving DecidableEq, Repr

/-- The parts of the Qt library whose declarations lie outside `action.cpp`:
whether `eventFilterMap` (declared in `action.hpp`) stores several values per
key (`QMultiMap`, whose `insert` adds) or one (`QMap`, whose `insert`
overwrites), and the parser `QKeySequence::fromString`. -/
structure Qt where
  multi : Bool
  fromString : String → QKeySequence

/-- The GPIO sysfs tree as seen by one call: which paths `QFile::open` opens
and what `read(1)` returns on an opened path (at most one byte). -/
structure FileSystem where
  canOpen : String → Bool
  read1 : String → List Nat

/-! ## The dispatcher table (`QMap<int, Action*>`) -/

/-- The entries of `eventFilterMap` in iteration order (ascending key; among
equal keys the most recently inserted first). -/
abbrev Table := List (Int × Nat)

namespace Table

/-- The call `QMap::key(value, defaultKey)`: the first key holding `value`. -/
def key (t : Table) (value : Nat) (defaultKey : Int) : Int :=
  match t with
  | [] => defaultKey
  | e :: rest => if e.2 = value then e.1 else key rest value defaultKey

/-- The call `QMap::remove(key)`: removes every item stored under `key`. -/
def remove (t : Table) (k : Int) : Table :=
  t.filter (fun e => decide (e.1 ≠ k))

/-- The call `QMap::insertMulti` (`QMultiMap::insert`): a new item, placed in
front of the items already stored under the same key. -/
def insertMulti (t : Table) (k : Int) (v : Nat) : Table :=
  match t with
  | [] => [(k, v)]
  | e :: rest => if e.1 < k then e :: insertMulti rest k v else (k, v) :: e :: rest

/-- The call `QMap::insert`: overwrites the value of an item with the same
key, and adds a new item otherwise. -/
def insertReplace (t : Table) (k : Int) (v : Nat) : Table :=
  match t with
  | [] => [(k, v)]
  | e :: rest =>
    if e.1 < k then e :: insertReplace rest k v
    else if k < e.1 then (k, v) :: e :: rest
    else (k, v) :: rest

/-- The call `eventFilterMap.insert(key, value)` for the container kind at hand. -/
def insert (qt : Qt) (t : Table) (k : Int) (v : Nat) : Table :=
  if qt.multi then insertMulti t k v else insertReplace t k v

/-- The call `QMap::find(key)`: the iterator at the first item stored under
`key`, or `end()`; an iterator is the list of items from its position on. -/
def find (t : Table) (k : Int) : Table :=
  t.dropWhile (fun e => decide (e.1 ≠ k))

/-- The values stored under `k`, in iteration order. -/
def valuesOf (t : Table) (k : Int) : List Nat :=
  (t.filter (fun e => decide (e.1 = k))).map Prod.snd

/-- The number of items that hold the action `v`. -/
def entriesOf (t : Table) (v : Nat) : Nat :=
  t.countP (fun e => decide (e.2 = v))

end Table

/-! ## The global event filter -/

/-- The kind of a `QEvent`, as far as `eventFilter` distinguishes it. -/
inductive EventType where
  | KeyPress
  | KeyRelease
  | Other
  deriving DecidableEq, Repr

/-- A `QEvent`; `key` and `isAutoRepeat` are read for key events only. -/
structure QEvent where
  type : EventType
  key : Int
  isAutoRepeat : Bool

/-- The singleton `ActionEventFilter`. -/
structure ActionEventFilter where
  disabled : Bool
  eventFilterMap : Table

namespace ActionEventFilter

/-- The call `disable()`. -/
def disable (f : ActionEventFilter) : ActionEventFilter :=
  { f with disabled := true }

/-- The call `enable()`. -/
def enable (f : ActionEventFilter) : ActionEventFilter :=
  { f with disabled := false }

/-- The `while` loop of `eventFilter`: from iterator `i`, calls `func_` of
every item while the key matches; gives the calls made and `count`. -/
def dispatchLoop (i : Table) (key : Int) (state : ActionState) :
    List (Nat × ActionState) × Nat :=
  match i with
  | [] => ([], 0)
  | e :: rest =>
    if e.1 = key then
      (((e.2, state) :: (dispatchLoop rest key state).1), (dispatchLoop rest key state).2 + 1)
    else ([], 0)

/-- The part of `eventFilter` after the `switch`. -/
def dispatchKey (f : ActionEventFilter) (event : QEvent) (state : ActionState) :
    Bool × List (Nat × ActionState) :=
  if !event.isAutoRepeat then
    let r := dispatchLoop (f.eventFilterMap.find event.key) event.key state
    if r.2 > 0 then (true, r.1) else (false, r.1)
  else (false, [])

/-- The method `ActionEventFilter::eventFilter`: its return value and the
callbacks it invoked, in order, as (action, state) pairs. -/
def eventFilter (f : ActionEventFilter) (event : QEvent) :
    Bool × List (Nat × ActionState) :=
  if f.disabled then (false, [])
  else if f.eventFilterMap.length = 0 then (false, [])
  else
    match event.type with
    | EventType.KeyPress => dispatchKey f event ActionState.Activated
    | EventType.KeyRelease => dispatchKey f event ActionState.Deactivated
    | EventType.Other => (false, [])

end ActionEventFilter

/-! ## Capture mode -/

namespace ActionDialog

/-- The effect of `ActionDialog::showEvent` on the event filter. -/
def showEvent (f : ActionEventFilter) : ActionEventFilter :=
  f.disable

/-- The effect of `ActionDialog::closeEvent` on the event filter. -/
def closeEvent (f : ActionEventFilter) : ActionEventFilter :=
  f.enable

end ActionDialog

/-! ## Actions -/

/-- The member `Action::gpio`: the watcher (its watched files and its
`blockSignals` flag), the value file and the cached polarity byte. -/
structure GPIO where
  watcherFiles : List String
  watcherBlocked : Bool
  valueFileName : String
  valueIsOpen : Bool
  active_low : Nat
  deriving DecidableEq

/-- An `Action` object: the key of its `QShortcut`, its GPIO block and `key_`. -/
structure Action where
  shortcut : QKeySequence
  gpio : GPIO
  key_ : QString
  deriving DecidableEq

/-- The state built by the constructors `Action::GPIO::GPIO` and `Action::Action`. -/
def Action.new : Action :=
  { shortcut := []
    gpio := { watcherFiles := [], watcherBlocked := false, valueFileName := "",
              valueIsOpen := false, active_low := 0xFF }
    key_ := none }

/-- The path `GPIONotifier::GPIOX_VALUE_PATH.arg(key)`. -/
def GPIOX_VALUE_PATH (key : QString) : String :=
  "/sys/class/gpio/" ++ key.text ++ "/value"

/-- The path `GPIONotifier::GPIOX_ACTIVE_LOW_PATH.arg(key)`. -/
def GPIOX_ACTIVE_LOW_PATH (key : QString) : String :=
  "/sys/class/gpio/" ++ key.text ++ "/active_low"

/-- What `Action::set` leaves behind: the action, the dispatcher table, and
whether `read(1)[0]` indexed an empty byte array. -/
structure SetResult where
  action : Action
  eventFilterMap : Table
  outOfRange : Bool
  deriving DecidableEq

/-- The teardown at the head of `Action::set` on the dispatcher table:
`key(this, -1)` followed by `remove(k)` when `k > -1`. -/
def Action.setRemove (this : Nat) (t : Table) : Table :=
  if t.key this (-1) > -1 then t.remove (t.key this (-1)) else t

/-- The method `Action::set(key)` of the action `this` with state `a`, against
the dispatcher table `t`.  `read(1)[0]` on an empty byte array (the non-const
`operator[]`, read through `QByteRef`) yields 0 and is recorded in `outOfRange`;
`addPath` on the value file just opened is taken to succeed. -/
def Action.set (qt : Qt) (fs : FileSystem) (this : Nat) (a : Action) (t : Table)
    (key : QString) : SetResult :=
  let t1 := Action.setRemove this t
  let g1 : GPIO := { a.gpio with watcherFiles := [], valueIsOpen := false }
  if key.startsWith "gpio" then
    let g2 : GPIO := { g1 with valueFileName := GPIOX_VALUE_PATH key }
    if fs.canOpen (GPIOX_VALUE_PATH key) then
      if fs.canOpen (GPIOX_ACTIVE_LOW_PATH key) then
        let bytes := fs.read1 (GPIOX_ACTIVE_LOW_PATH key)
        { action := { shortcut := [], key_ := key,
                      gpio := { g2 with valueIsOpen := true, active_low := bytes.getD 0 0,
                                        watcherFiles := [GPIOX_VALUE_PATH key] } }
          eventFilterMap := t1
          outOfRange := bytes.isEmpty }
      else
        { action := { shortcut := [], key_ := key, gpio := { g2 with valueIsOpen := true } }
          eventFilterMap := t1
          outOfRange := false }
    else
      { action := { shortcut := [], key_ := key, gpio := g2 }
        eventFilterMap := t1
        outOfRange := false }
  else if !key.isNull then
    if !key.contains '+' then
      { action := { shortcut := [], key_ := key, gpio := g1 }
        eventFilterMap := Table.insert qt t1 (QKeySequence.at (qt.fromString key.text) 0) this
        outOfRange := false }
    else
      { action := { shortcut := qt.fromString key.text, key_ := key, gpio := g1 }
        eventFilterMap := t1
        outOfRange := false }
  else
    { action := { shortcut := [], key_ := key, gpio := g1 }
      eventFilterMap := t1
      outOfRange := false }

/-- What one run of the `fileChanged` handler leaves behind: the action, the
states the callback was invoked with, and whether a 300 ms unmask was scheduled. -/
structure HandlerResult where
  action : Action
  calls : List ActionState
  unmaskScheduled : Bool
  deriving DecidableEq

/-- The `fileChanged` lambda connected in the constructor `Action::Action`;
`rd` is what `value.read(1)` returns after `seek(0)`.  The result is `none`
when `at(0)` is applied to an empty byte array (`QByteArray::at` requires the
index to be in range). -/
def Action.fileChanged (a : Action) (rd : List Nat) : Option HandlerResult :=
  if a.gpio.valueIsOpen then
    match rd with
    | [] => none
    | b :: _ =>
      if a.gpio.active_low = b then
        some { action := { a with gpio := { a.gpio with watcherBlocked := true } }
               calls := [ActionState.Triggered]
               unmaskScheduled := true }
      else some { action := a, calls := [], unmaskScheduled := false }
  else some { action := a, calls := [], unmaskScheduled := false }

/-- A change notification of the watcher: dropped while `blockSignals(true)`
is in force, and delivered to the handler otherwise. -/
def Action.notify (a : Action) (rd : List Nat) : Option HandlerResult :=
  if a.gpio.watcherBlocked then some { action := a, calls := [], unmaskScheduled := false }
  else a.fileChanged rd

/-- The body of the single-shot timer: `watcher.blockSignals(false)`. -/
def Action.unmask (a : Action) : Action :=
  { a with gpio := { a.gpio with watcherBlocked := false } }

/-- A run of change notifications with no timer firing in between: the final
action and all callback invocations, in order. -/
def Action.notifyAll (a : Action) (rds : List (List Nat)) : Option (Action × List ActionState) :=
  match rds with
  | [] => some (a, [])
  | rd :: rest =>
    match a.notify rd with
    | none => none
    | some r =>
      match Action.notifyAll r.action rest with
      | none => none
      | some (a2, calls) => some (a2, r.calls ++ calls)

/-! ## Reachable dispatcher tables -/

/-- The dispatcher tables that arise from the empty table through calls of
`Action::set`, on any action in any state with any identifier. -/
inductive ReachableTable (qt : Qt) : Table → Prop where
  | init : ReachableTable qt []
  | step (fs : FileSystem) (this : Nat) (a : Action) (t : Table) (key : QString) :
      ReachableTable qt t → ReachableTable qt (Action.set qt fs this a t key).eventFilterMap

/-- The keys of a table ascend, as the iteration order of a `QMap` does. -/
def Table.Sorted (t : Table) : Prop :=
  t.Pairwise (fun x y => x.1 ≤ y.1)

/-- The invariant of the dispatcher table: ascending keys, no negative key
code, and no action held by two items. -/
def Table.Inv (t : Table) : Prop :=
  Table.Sorted t ∧ (∀ e ∈ t, 0 ≤ e.1) ∧ (t.map Prod.snd).Nodup

/-- The single-key identifiers: non-null, not starting with `gpio`, without `+`. -/
def QString.isSingleKey (key : QString) : Bool :=
  !key.startsWith "gpio" && !key.isNull && !key.contains '+'

/-- No two items of the table share a key code, as in a `QMap` filled by
`insert` alone. -/
def Table.KeysDistinct (t : Table) : Prop :=
  (t.map Prod.fst).Nodup

/-- One call `c.action.set(c.key)` on the action `c.this`, with the GPIO tree
as it is at the time of the call. -/
structure SetCall where
  fs : FileSystem
  this : Nat
  action : Action
  key : QString

/-- The dispatcher table after a sequence of `Action::set` calls, first call first. -/
def runSets (qt : Qt) (calls : List SetCall) (t : Table) : Table :=
  match calls with
  | [] => t
  | c :: rest => runSets qt rest (Action.set qt c.fs c.this c.action t c.key).eventFilterMap

/-- The state `eventFilter` hands to the callbacks for a key event. -/
def keyState (ty : EventType) : ActionState :=
  match ty with
  | EventType.KeyPress => ActionState.Activated
  | EventType.KeyRelease => ActionState.Deactivated
  | EventType.Other => ActionState.Triggered

/-! ## Concrete platforms for the examples -/

/-- A fragment of `QKeySequence::fromString`: the codes of `F1` and `F5`
(`Qt::Key_F1`, `Qt::Key_F5`), of `Ctrl+F5` (`Qt::CTRL` added), the empty
sequence for the empty string and `Qt::Key_unknown` for anything else. -/
def exampleFromString (s : String) : QKeySequence :=
  if s = "F5" then [0x01000034]
  else if s = "F1" then [0x01000030]
  else if s = "Ctrl+F5" then [0x04000000 + 0x01000034]
  else if s = "" then []
  else [0x01ffffff]

/-- The example platform with a multi-map dispatcher table. -/
def qtMulti : Qt := { multi := true, fromString := exampleFromString }

/-- The example platform with a plain map as dispatcher table. -/
def qtPlain : Qt := { multi := false, fromString := exampleFromString }

/-- A GPIO tree in which every file opens and `read(1)` returns `bytes`. -/
def fsReads (bytes : List Nat) : FileSystem :=
  { canOpen := fun _ => true, read1 := fun _ => bytes }

/-- A GPIO tree in which the value file of `gpio5` opens and nothing else does. -/
def fsNoPolarity : FileSystem :=
  { canOpen := fun p => decide (p = "/sys/class/gpio/gpio5/value"), read1 := fun _ => [] }

/-- The call `set("F5")` on a fresh action `this`. -/
def setF5 (this : Nat) : SetCall :=
  { fs := fsReads [49], this := this, action := Action.new, key := some "F5" }

/-- A non-repeat key press of `F5`. -/
def pressF5 : QEvent :=
  { type := EventType.KeyPress, key := 0x01000034, isAutoRepeat := false }

/-- An action bound to `gpio5` with cached polarity byte `'1'`, in state Armed. -/
def armedGpio5 : Action :=
  (Action.set qtMulti (fsReads [49]) 1 Action.new [] (some "gpio5")).action

/-- The action `armedGpio5` right after a trigger: masked, unmask pending. -/
def triggeredGpio5 : Action :=
  { armedGpio5 with gpio := { armedGpio5.gpio with watcherBlocked := true } }

/-! ## Lemmas on the dispatcher table -/

theorem Table.find_eq_nil_iff (t : Table) (k : Int) :
    t.find k = [] ↔ ∀ e ∈ t, e.1 ≠ k := by
  induction t with
  | nil => simp [Table.find]
  | cons e rest ih =>
    by_cases h : e.1 = k
    · simp [Table.find, List.dropWhile, h]
    · have ih2 : List.dropWhile (fun e => decide (e.1 ≠ k)) rest = [] ↔ ∀ x ∈ rest, x.1 ≠ k := ih
      simp only [Table.find, List.dropWhile, ne_eq, h, not_false_eq_true, decide_True,
        List.mem_cons, forall_eq_or_imp, true_and]
      exact ih2

theorem Table.find_head (t : Table) (k : Int) (e : Int × Nat) (rest : Table)
    (h : t.find k = e :: rest) : e.1 = k := by
  have hne : List.dropWhile (fun e => decide (e.1 ≠ k)) t ≠ [] := by
    intro h0
    rw [Table.find, h0] at h
    cases h
  have := List.head_dropWhile_not (fun e => decide (e.1 ≠ k)) t hne
  have h2 : List.dropWhile (fun e => decide (e.1 ≠ k)) t = e :: rest := h
  simp only [h2, List.head_cons] at this
  simpa using this

theorem ActionEventFilter.dispatchLoop_count (i : Table) (k : Int) (s : ActionState) :
    (dispatchLoop i k s).2 = (dispatchLoop i k s).1.length := by
  induction i with
  | nil => simp [dispatchLoop]
  | cons e rest ih =>
    by_cases h : e.1 = k
    · simp [dispatchLoop, h, ih]
    · simp [dispatchLoop, h]

theorem ActionEventFilter.dispatchLoop_find_nil_iff (t : Table) (k : Int) (s : ActionState) :
    (dispatchLoop (t.find k) k s).1 = [] ↔ ∀ e ∈ t, e.1 ≠ k := by
  rw [← Table.find_eq_nil_iff]
  constructor
  · intro h
    match hf : t.find k with
    | [] => rfl
    | e :: rest =>
      have hk := Table.find_head t k e rest hf
      rw [hf] at h
      simp [dispatchLoop, hk] at h
  · intro h
    rw [h]
    simp [dispatchLoop]

/-- From an iterator whose remaining keys are all at least `k` in a sorted
table, the loop calls exactly the values stored under `k`, in order. -/
theorem ActionEventFilter.dispatchLoop_of_ge (i : Table) (k : Int) (s : ActionState)
    (hs : Table.Sorted i) (hge : ∀ e ∈ i, k ≤ e.1) :
    (dispatchLoop i k s).1 = (Table.valuesOf i k).map (fun a => (a, s)) := by
  induction i with
  | nil => simp [dispatchLoop, Table.valuesOf]
  | cons e rest ih =>
    have hs2 : Table.Sorted rest := (List.pairwise_cons.mp hs).2
    have hle : ∀ x ∈ rest, e.1 ≤ x.1 := (List.pairwise_cons.mp hs).1
    by_cases h : e.1 = k
    · have := ih hs2 (fun x hx => hge x (List.mem_cons_of_mem _ hx))
      simp [dispatchLoop, h, Table.valuesOf, List.filter_cons] at this ⊢
      exact this
    · have hlt : k < e.1 := lt_of_le_of_ne (hge e (List.mem_cons_self _ _)) (Ne.symm h)
      have hnone : List.filter (fun x => decide (x.1 = k)) rest = [] := by
        rw [List.filter_eq_nil_iff]
        intro x hx
        have := hle x hx
        simp only [decide_eq_true_eq]
        omega
      simp [dispatchLoop, h, Table.valuesOf, List.filter_cons, hnone]

/-- In a sorted table the dispatch loop, started at `find(k)`, calls exactly
the values stored under `k`, in iteration order. -/
theorem ActionEventFilter.dispatchLoop_find (t : Table) (k : Int) (s : ActionState)
    (hs : Table.Sorted t) :
    (dispatchLoop (t.find k) k s).1 = (Table.valuesOf t k).map (fun a => (a, s)) := by
  induction t with
  | nil => simp [dispatchLoop, Table.valuesOf, Table.find]
  | cons e rest ih =>
    have hs2 : Table.Sorted rest := (List.pairwise_cons.mp hs).2
    have hle : ∀ x ∈ rest, e.1 ≤ x.1 := (List.pairwise_cons.mp hs).1
    by_cases h : e.1 = k
    · have hf : Table.find (e :: rest) k = e :: rest := by
        simp [Table.find, List.dropWhile, h]
      rw [hf]
      apply dispatchLoop_of_ge _ _ _ hs
      intro x hx
      rcases List.mem_cons.mp hx with rfl | hx
      · omega
      · have := hle x hx
        omega
    · have hf : Table.find (e :: rest) k = Table.find rest k := by
        simp [Table.find, List.dropWhile, h]
      rw [hf, ih hs2]
      simp [Table.valuesOf, List.filter_cons, h]

/-! ## Invariants of the dispatcher table -/

theorem Table.entriesOf_eq_count (t : Table) (v : Nat) :
    t.entriesOf v = (t.map Prod.snd).count v := by
  induction t with
  | nil => rfl
  | cons e rest ih =>
    unfold Table.entriesOf at ih ⊢
    simp only [List.countP_cons, List.map_cons, List.count_cons, ih]
    by_cases h : e.2 = v <;> simp [h]

theorem Table.remove_inv (t : Table) (k : Int) (h : t.Inv) : (t.remove k).Inv := by
  obtain ⟨hs, hk, hn⟩ := h
  refine ⟨List.Pairwise.filter _ hs, ?_, ?_⟩
  · intro e he
    exact hk e (List.mem_filter.mp he).1
  · exact hn.sublist ((List.filter_sublist t).map Prod.snd)

theorem Table.insertMulti_perm (t : Table) (k : Int) (v : Nat) :
    (t.insertMulti k v).Perm ((k, v) :: t) := by
  induction t with
  | nil => simp [Table.insertMulti]
  | cons e rest ih =>
    by_cases h : e.1 < k
    · simp only [Table.insertMulti, h, if_true]
      exact (List.Perm.cons e ih).trans (List.Perm.swap _ _ _)
    · simp [Table.insertMulti, h]

theorem Table.insertMulti_sorted (t : Table) (k : Int) (v : Nat) (hs : t.Sorted) :
    (t.insertMulti k v).Sorted := by
  induction t with
  | nil => simp [Table.insertMulti, Table.Sorted]
  | cons e rest ih =>
    have hs2 : Table.Sorted rest := (List.pairwise_cons.mp hs).2
    have hle : ∀ x ∈ rest, e.1 ≤ x.1 := (List.pairwise_cons.mp hs).1
    by_cases h : e.1 < k
    · simp only [Table.insertMulti, h, if_true]
      refine List.pairwise_cons.mpr ⟨?_, ih hs2⟩
      intro x hx
      rcases List.mem_cons.mp ((Table.insertMulti_perm rest k v).mem_iff.mp hx) with rfl | hx
      · exact le_of_lt h
      · exact hle x hx
    · simp only [Table.insertMulti, h, if_false]
      refine List.pairwise_cons.mpr ⟨?_, hs⟩
      intro x hx
      rcases List.mem_cons.mp hx with rfl | hx
      · exact not_lt.mp h
      · exact le_trans (not_lt.mp h) (hle x hx)

theorem Table.insertMulti_inv (t : Table) (k : Int) (v : Nat) (h : t.Inv) (hk : 0 ≤ k)
    (hv : v ∉ t.map Prod.snd) : (t.insertMulti k v).Inv := by
  obtain ⟨hs, hkeys, hn⟩ := h
  refine ⟨Table.insertMulti_sorted t k v hs, ?_, ?_⟩
  · intro e he
    rcases List.mem_cons.mp ((Table.insertMulti_perm t k v).mem_iff.mp he) with rfl | he
    · exact hk
    · exact hkeys e he
  · have hp := (Table.insertMulti_perm t k v).map Prod.snd
    exact hp.nodup_iff.mpr (by rw [List.map_cons]; exact List.nodup_cons.mpr ⟨hv, hn⟩)

theorem Table.mem_insertReplace (t : Table) (k : Int) (v : Nat) (x : Int × Nat)
    (hx : x ∈ t.insertReplace k v) : x = (k, v) ∨ x ∈ t := by
  induction t with
  | nil => simpa [Table.insertReplace] using hx
  | cons e rest ih =>
    by_cases h : e.1 < k
    · simp only [Table.insertReplace, h, if_true, List.mem_cons] at hx
      rcases hx with rfl | hx
      · exact Or.inr (List.mem_cons_self _ _)
      · rcases ih hx with h1 | h1
        · exact Or.inl h1
        · exact Or.inr (List.mem_cons_of_mem _ h1)
    · by_cases h2 : k < e.1
      · simp only [Table.insertReplace, h, h2, if_true, if_false, List.mem_cons] at hx
        rcases hx with rfl | rfl | hx
        · exact Or.inl rfl
        · exact Or.inr (List.mem_cons_self _ _)
        · exact Or.inr (List.mem_cons_of_mem _ hx)
      · simp only [Table.insertReplace, h, h2, if_false, List.mem_cons] at hx
        rcases hx with rfl | hx
        · exact Or.inl rfl
        · exact Or.inr (List.mem_cons_of_mem _ hx)

theorem Table.insertReplace_inv (t : Table) (k : Int) (v : Nat) (h : t.Inv) (hk : 0 ≤ k)
    (hv : v ∉ t.map Prod.snd) : (t.insertReplace k v).Inv := by
  induction t with
  | nil =>
    simp [Table.insertReplace, Table.Inv, Table.Sorted, hk]
  | cons e rest ih =>
    obtain ⟨hs, hkeys, hn⟩ := h
    have hs2 : Table.Sorted rest := (List.pairwise_cons.mp hs).2
    have hle : ∀ x ∈ rest, e.1 ≤ x.1 := (List.pairwise_cons.mp hs).1
    have hn2 : (rest.map Prod.snd).Nodup := (List.nodup_cons.mp (by simpa using hn)).2
    have he2 : e.2 ∉ rest.map Prod.snd := (List.nodup_cons.mp (by simpa using hn)).1
    have hv2 : v ∉ rest.map Prod.snd := fun hm => hv (by simp at hm ⊢; exact Or.inr hm)
    have hve : v ≠ e.2 := fun hm => hv (by simp [hm])
    have ihr := ih ⟨hs2, fun x hx => hkeys x (List.mem_cons_of_mem _ hx), hn2⟩ hv2
    by_cases h1 : e.1 < k
    · simp only [Table.insertReplace, h1, if_true]
      refine ⟨List.pairwise_cons.mpr ⟨?_, ihr.1⟩, ?_, ?_⟩
      · intro x hx
        rcases Table.mem_insertReplace rest k v x hx with rfl | hx
        · exact le_of_lt h1
        · exact hle x hx
      · intro x hx
        rcases List.mem_cons.mp hx with rfl | hx
        · exact hkeys _ (List.mem_cons_self _ _)
        · exact ihr.2.1 x hx
      · rw [List.map_cons, List.nodup_cons]
        refine ⟨?_, ihr.2.2⟩
        intro hm
        obtain ⟨x, hx, hx2⟩ := List.mem_map.mp hm
        rcases Table.mem_insertReplace rest k v x hx with rfl | hx
        · exact hve hx2
        · exact he2 (List.mem_map.mpr ⟨x, hx, hx2⟩)
    · by_cases h2 : k < e.1
      · simp only [Table.insertReplace, h1, h2, if_true, if_false]
        refine ⟨List.pairwise_cons.mpr ⟨?_, hs⟩, ?_, ?_⟩
        · intro x hx
          rcases List.mem_cons.mp hx with rfl | hx
          · exact le_of_lt h2
          · exact le_trans (le_of_lt h2) (hle x hx)
        · intro x hx
          rcases List.mem_cons.mp hx with rfl | hx
          · exact hk
          · exact hkeys x hx
        · rw [List.map_cons, List.nodup_cons]
          exact ⟨hv, hn⟩
      · have hek : e.1 = k := le_antisymm (not_lt.mp h2) (not_lt.mp h1)
        simp only [Table.insertReplace, h1, h2, if_false]
        refine ⟨List.pairwise_cons.mpr ⟨?_, hs2⟩, ?_, ?_⟩
        · intro x hx
          have := hle x hx
          simpa [hek] using this
        · intro x hx
          rcases List.mem_cons.mp hx with rfl | hx
          · exact hk
          · exact hkeys x (List.mem_cons_of_mem _ hx)
        · rw [List.map_cons, List.nodup_cons]
          exact ⟨hv2, hn2⟩

theorem Table.insert_inv (qt : Qt) (t : Table) (k : Int) (v : Nat) (h : t.Inv) (hk : 0 ≤ k)
    (hv : v ∉ t.map Prod.snd) : (Table.insert qt t k v).Inv := by
  unfold Table.insert
  split
  · exact Table.insertMulti_inv t k v h hk hv
  · exact Table.insertReplace_inv t k v h hk hv

theorem Table.key_mem (t : Table) (v : Nat) (d : Int) (hv : v ∈ t.map Prod.snd) :
    (t.key v d, v) ∈ t := by
  induction t with
  | nil => simp at hv
  | cons e rest ih =>
    by_cases h : e.2 = v
    · simp only [Table.key, h, if_true, List.mem_cons]
      exact Or.inl (by rw [← h])
    · simp only [Table.key, h, if_false, List.mem_cons]
      refine Or.inr (ih ?_)
      simp only [List.map_cons, List.mem_cons] at hv
      rcases hv with hv | hv
      · exact absurd hv.symm h
      · exact hv

theorem Table.key_not_mem (t : Table) (v : Nat) (d : Int) (hv : v ∉ t.map Prod.snd) :
    t.key v d = d := by
  induction t with
  | nil => rfl
  | cons e rest ih =>
    simp only [List.map_cons, List.mem_cons, not_or] at hv
    simp [Table.key, Ne.symm hv.1, ih hv.2]

theorem Action.setRemove_of_not_mem (this : Nat) (t : Table) (hv : this ∉ t.map Prod.snd) :
    Action.setRemove this t = t := by
  simp [Action.setRemove, Table.key_not_mem t this (-1) hv]

theorem Action.setRemove_inv (this : Nat) (t : Table) (h : t.Inv) :
    (Action.setRemove this t).Inv := by
  unfold Action.setRemove
  split
  · exact Table.remove_inv t _ h
  · exact h

theorem Action.setRemove_not_mem (this : Nat) (t : Table) (h : t.Inv) :
    this ∉ (Action.setRemove this t).map Prod.snd := by
  by_cases hv : this ∈ t.map Prod.snd
  · have hm := Table.key_mem t this (-1) hv
    have hk : t.key this (-1) > -1 := by
      have := h.2.1 _ hm
      simp only at this
      omega
    simp only [Action.setRemove, hk, if_true]
    intro hc
    obtain ⟨x, hx, hx2⟩ := List.mem_map.mp hc
    have hxt : x ∈ t := (List.mem_filter.mp hx).1
    have hxk : x.1 ≠ t.key this (-1) := by simpa using (List.mem_filter.mp hx).2
    have hinj := List.inj_on_of_nodup_map h.2.2 hxt hm (by simpa using hx2)
    exact hxk (by rw [hinj])
  · rw [Action.setRemove_of_not_mem this t hv]
    exact hv

theorem Action.set_eventFilterMap (qt : Qt) (fs : FileSystem) (this : Nat) (a : Action)
    (t : Table) (key : QString) :
    (Action.set qt fs this a t key).eventFilterMap =
      if key.isSingleKey then
        Table.insert qt (Action.setRemove this t) (QKeySequence.at (qt.fromString key.text) 0) this
      else Action.setRemove this t := by
  unfold Action.set QString.isSingleKey
  cases h1 : key.startsWith "gpio" <;> cases h2 : key.isNull <;> cases h3 : key.contains '+' <;>
    simp <;> split <;> (try split) <;> rfl

theorem QKeySequence.at_nonneg (s : QKeySequence) (i : Nat) : 0 ≤ QKeySequence.at s i := by
  unfold QKeySequence.at
  exact Int.ofNat_nonneg _

theorem Action.set_inv (qt : Qt) (fs : FileSystem) (this : Nat) (a : Action)
    (t : Table) (key : QString) (h : t.Inv) :
    (Action.set qt fs this a t key).eventFilterMap.Inv := by
  rw [Action.set_eventFilterMap]
  split
  · exact Table.insert_inv qt _ _ _ (Action.setRemove_inv this t h) (QKeySequence.at_nonneg _ _)
      (Action.setRemove_not_mem this t h)
  · exact Action.setRemove_inv this t h

theorem ReachableTable.inv (qt : Qt) (t : Table) (h : ReachableTable qt t) : t.Inv := by
  induction h with
  | init => simp [Table.Inv, Table.Sorted]
  | step fs this a t key _ ih => exact Action.set_inv qt fs this a t key ih

/-! ## Dispatch order -/

/-- On a sorted table an enabled dispatch of a non-repeat key event calls the
actions stored under the key code, in iteration order, and returns whether
there was one. -/
theorem ActionEventFilter.eventFilter_sorted (t : Table) (ev : QEvent) (hs : t.Sorted)
    (hty : ev.type ≠ EventType.Other) (hrep : ev.isAutoRepeat = false) :
    eventFilter { disabled := false, eventFilterMap := t } ev =
      (decide (t.valuesOf ev.key ≠ []),
        (t.valuesOf ev.key).map (fun a => (a, keyState ev.type))) := by
  have key : ∀ s : ActionState,
      dispatchKey { disabled := false, eventFilterMap := t } ev s =
        (decide (t.valuesOf ev.key ≠ []), (t.valuesOf ev.key).map (fun a => (a, s))) := by
    intro s
    have hc := dispatchLoop_count (t.find ev.key) ev.key s
    have hf := dispatchLoop_find t ev.key s hs
    simp only [dispatchKey, hrep, Bool.not_false, if_true, hc, hf, List.length_map]
    cases hv : t.valuesOf ev.key with
    | nil => simp
    | cons x xs => simp
  by_cases hl : t.length = 0
  · have ht : t = [] := List.length_eq_zero.mp hl
    subst ht
    simp [eventFilter, Table.valuesOf]
  · cases hty2 : ev.type with
    | KeyPress => simpa [eventFilter, hl, hty2, keyState] using key ActionState.Activated
    | KeyRelease => simpa [eventFilter, hl, hty2, keyState] using key ActionState.Deactivated
    | Other => exact absurd hty2 hty

theorem Table.valuesOf_insertMulti (t : Table) (k : Int) (v : Nat) :
    (t.insertMulti k v).valuesOf k = v :: t.valuesOf k := by
  induction t with
  | nil => simp [Table.insertMulti, Table.valuesOf]
  | cons e rest ih =>
    by_cases h : e.1 < k
    · have hne : e.1 ≠ k := ne_of_lt h
      simp only [Table.valuesOf] at ih
      simp [Table.insertMulti, h, Table.valuesOf, List.filter_cons, hne, ih]
    · simp [Table.insertMulti, h, Table.valuesOf, List.filter_cons]

theorem Table.valuesOf_insertReplace (t : Table) (k : Int) (v : Nat) (hs : t.Sorted)
    (hd : t.KeysDistinct) : (t.insertReplace k v).valuesOf k = [v] := by
  induction t with
  | nil => simp [Table.insertReplace, Table.valuesOf]
  | cons e rest ih =>
    have hs2 : Table.Sorted rest := (List.pairwise_cons.mp hs).2
    have hle : ∀ x ∈ rest, e.1 ≤ x.1 := (List.pairwise_cons.mp hs).1
    have hd0 : (e.1 :: rest.map Prod.fst).Nodup := hd
    have hd1 : e.1 ∉ rest.map Prod.fst := (List.nodup_cons.mp hd0).1
    have hd2 : Table.KeysDistinct rest := (List.nodup_cons.mp hd0).2
    have hlt : ∀ x ∈ rest, e.1 < x.1 := by
      intro x hx
      refine lt_of_le_of_ne (hle x hx) ?_
      intro heq
      exact hd1 (List.mem_map.mpr ⟨x, hx, heq.symm⟩)
    by_cases h1 : e.1 < k
    · have hne : e.1 ≠ k := ne_of_lt h1
      have := ih hs2 hd2
      simp only [Table.valuesOf] at this
      simp [Table.insertReplace, h1, Table.valuesOf, List.filter_cons, hne, this]
    · have hnone : List.filter (fun x => decide (x.1 = k)) rest = [] := by
        rw [List.filter_eq_nil_iff]
        intro x hx
        have := hlt x hx
        simp only [decide_eq_true_eq]
        omega
      by_cases h2 : k < e.1
      · have hne : e.1 ≠ k := ne_of_gt h2
        simp [Table.insertReplace, h1, h2, Table.valuesOf, List.filter_cons, hne, hnone]
      · simp [Table.insertReplace, h1, h2, Table.valuesOf, List.filter_cons, hnone]

theorem Table.insertReplace_keysDistinct (t : Table) (k : Int) (v : Nat) (hs : t.Sorted)
    (hd : t.KeysDistinct) : (t.insertReplace k v).KeysDistinct := by
  induction t with
  | nil => simp [Table.insertReplace, Table.KeysDistinct]
  | cons e rest ih =>
    have hs2 : Table.Sorted rest := (List.pairwise_cons.mp hs).2
    have hle : ∀ x ∈ rest, e.1 ≤ x.1 := (List.pairwise_cons.mp hs).1
    have hd0 : (e.1 :: rest.map Prod.fst).Nodup := hd
    have hd1 : e.1 ∉ rest.map Prod.fst := (List.nodup_cons.mp hd0).1
    have hd2 : Table.KeysDistinct rest := (List.nodup_cons.mp hd0).2
    unfold Table.KeysDistinct at *
    by_cases h1 : e.1 < k
    · simp only [Table.insertReplace, h1, if_true, List.map_cons, List.nodup_cons]
      refine ⟨?_, ih hs2 hd2⟩
      intro hm
      obtain ⟨x, hx, hx2⟩ := List.mem_map.mp hm
      rcases Table.mem_insertReplace rest k v x hx with rfl | hx
      · simp only at hx2
        omega
      · exact hd1 (List.mem_map.mpr ⟨x, hx, hx2⟩)
    · by_cases h2 : k < e.1
      · simp only [Table.insertReplace, h1, h2, if_true, if_false, List.map_cons,
          List.nodup_cons]
        refine ⟨?_, hd1, hd2⟩
        intro hm
        rcases List.mem_cons.mp hm with hm | hm
        · omega
        · obtain ⟨x, hx, hx2⟩ := List.mem_map.mp hm
          have := hle x hx
          omega
      · have hek : e.1 = k := le_antisymm (not_lt.mp h2) (not_lt.mp h1)
        simp only [Table.insertReplace, h1, h2, if_false, List.map_cons, List.nodup_cons]
        exact ⟨by rw [← hek]; exact hd1, hd2⟩

theorem Action.setRemove_keysDistinct (this : Nat) (t : Table) (hd : t.KeysDistinct) :
    (Action.setRemove this t).KeysDistinct := by
  unfold Action.setRemove
  split
  · exact List.Nodup.sublist ((List.filter_sublist t).map Prod.fst) hd
  · exact hd

theorem Action.set_keysDistinct (qt : Qt) (fs : FileSystem) (this : Nat) (a : Action)
    (t : Table) (key : QString) (hm : qt.multi = false) (h : t.Inv) (hd : t.KeysDistinct) :
    (Action.set qt fs this a t key).eventFilterMap.KeysDistinct := by
  rw [Action.set_eventFilterMap]
  split
  · simp only [Table.insert, hm, Bool.false_eq_true, if_false]
    exact Table.insertReplace_keysDistinct _ _ _ (Action.setRemove_inv this t h).1
      (Action.setRemove_keysDistinct this t hd)
  · exact Action.setRemove_keysDistinct this t hd

theorem ReachableTable.keysDistinct (qt : Qt) (t : Table) (hm : qt.multi = false)
    (h : ReachableTable qt t) : t.KeysDistinct := by
  induction h with
  | init => simp [Table.KeysDistinct]
  | step fs this a t key hr ih =>
    exact Action.set_keysDistinct qt fs this a t key hm (ReachableTable.inv qt t hr) ih

theorem Table.mem_insert (qt : Qt) (t : Table) (k : Int) (v : Nat) (x : Int × Nat)
    (hx : x ∈ Table.insert qt t k v) : x = (k, v) ∨ x ∈ t := by
  unfold Table.insert at hx
  split at hx
  · exact List.mem_cons.mp ((Table.insertMulti_perm t k v).mem_iff.mp hx)
  · exact Table.mem_insertReplace t k v x hx

/-- Registering a single-key identifier for an action the table does not
hold yet is a plain `insert`. -/
theorem Action.set_fresh_single (qt : Qt) (c : SetCall) (t : Table)
    (hf : c.this ∉ t.map Prod.snd) (hk : c.key.isSingleKey = true) :
    (Action.set qt c.fs c.this c.action t c.key).eventFilterMap =
      Table.insert qt t (QKeySequence.at (qt.fromString c.key.text) 0) c.this := by
  rw [Action.set_eventFilterMap, hk, Action.setRemove_of_not_mem c.this t hf]
  rfl

theorem Action.set_fresh_others (qt : Qt) (c : SetCall) (t : Table) (v : Nat)
    (hf : c.this ∉ t.map Prod.snd) (hk : c.key.isSingleKey = true)
    (hv : v ∉ t.map Prod.snd) (hne : v ≠ c.this) :
    v ∉ (Action.set qt c.fs c.this c.action t c.key).eventFilterMap.map Prod.snd := by
  rw [Action.set_fresh_single qt c t hf hk]
  intro hm
  obtain ⟨x, hx, hx2⟩ := List.mem_map.mp hm
  rcases Table.mem_insert qt t _ _ x hx with rfl | hx
  · exact hne hx2.symm
  · exact hv (List.mem_map.mpr ⟨x, hx, hx2⟩)

theorem runSets_valuesOf_multi (qt : Qt) (hm : qt.multi = true) (k : Int)
    (calls : List SetCall) (t : Table)
    (hfresh : ∀ c ∈ calls, c.this ∉ t.map Prod.snd)
    (hnd : (calls.map SetCall.this).Nodup)
    (hkey : ∀ c ∈ calls, c.key.isSingleKey = true ∧
      QKeySequence.at (qt.fromString c.key.text) 0 = k) :
    (runSets qt calls t).valuesOf k = (calls.map SetCall.this).reverse ++ t.valuesOf k := by
  induction calls generalizing t with
  | nil => simp [runSets]
  | cons c rest ih =>
    have hc := hkey c (List.mem_cons_self _ _)
    have hfc := hfresh c (List.mem_cons_self _ _)
    have hnd0 : (c.this :: rest.map SetCall.this).Nodup := hnd
    have hnd1 := (List.nodup_cons.mp hnd0).1
    have hnd2 := (List.nodup_cons.mp hnd0).2
    have hstep := Action.set_fresh_single qt c t hfc hc.1
    have hih := ih (Action.set qt c.fs c.this c.action t c.key).eventFilterMap
      (by
        intro d hd
        refine Action.set_fresh_others qt c t d.this hfc hc.1
          (hfresh d (List.mem_cons_of_mem _ hd)) ?_
        intro heq
        exact hnd1 (List.mem_map.mpr ⟨d, hd, heq⟩))
      hnd2 (fun d hd => hkey d (List.mem_cons_of_mem _ hd))
    have hins : Table.insert qt t k c.this = t.insertMulti k c.this := by
      simp [Table.insert, hm]
    rw [hstep, hc.2, hins] at hih
    simp only [runSets, hstep, hc.2, hins, hih, Table.valuesOf_insertMulti, List.map_cons,
      List.reverse_cons, List.append_assoc, List.singleton_append]

theorem runSets_valuesOf_plain (qt : Qt) (hm : qt.multi = false) (k : Int)
    (calls : List SetCall) (t : Table) (hne : calls ≠ [])
    (hinv : t.Inv) (hd : t.KeysDistinct)
    (hfresh : ∀ c ∈ calls, c.this ∉ t.map Prod.snd)
    (hnd : (calls.map SetCall.this).Nodup)
    (hkey : ∀ c ∈ calls, c.key.isSingleKey = true ∧
      QKeySequence.at (qt.fromString c.key.text) 0 = k) :
    (runSets qt calls t).valuesOf k = [(calls.getLast hne).this] := by
  induction calls generalizing t with
  | nil => exact absurd rfl hne
  | cons c rest ih =>
    have hc := hkey c (List.mem_cons_self _ _)
    have hfc := hfresh c (List.mem_cons_self _ _)
    have hnd0 : (c.this :: rest.map SetCall.this).Nodup := hnd
    have hnd1 := (List.nodup_cons.mp hnd0).1
    have hnd2 := (List.nodup_cons.mp hnd0).2
    have hstep := Action.set_fresh_single qt c t hfc hc.1
    cases rest with
    | nil =>
      simp only [runSets, hstep, hc.2, Table.insert, hm, Bool.false_eq_true, if_false,
        List.getLast_singleton]
      exact Table.valuesOf_insertReplace t k c.this hinv.1 hd
    | cons d rest2 =>
      have hih := ih (Action.set qt c.fs c.this c.action t c.key).eventFilterMap
        (List.cons_ne_nil _ _)
        (Action.set_inv qt c.fs c.this c.action t c.key hinv)
        (Action.set_keysDistinct qt c.fs c.this c.action t c.key hm hinv hd)
        (by
          intro x hx
          refine Action.set_fresh_others qt c t x.this hfc hc.1
            (hfresh x (List.mem_cons_of_mem _ hx)) ?_
          intro heq
          exact hnd1 (List.mem_map.mpr ⟨x, hx, heq⟩))
        hnd2 (fun x hx => hkey x (List.mem_cons_of_mem _ hx))
      rw [List.getLast_cons (List.cons_ne_nil _ _)]
      exact hih

theorem runSets_inv (qt : Qt) (calls : List SetCall) (t : Table) (hinv : t.Inv) :
    (runSets qt calls t).Inv := by
  induction calls generalizing t with
  | nil => exact hinv
  | cons c rest ih => exact ih _ (Action.set_inv qt c.fs c.this c.action t c.key hinv)

/-! ## What `Action::set` leaves in the action and in the table -/

theorem Table.mem_insert_self (qt : Qt) (t : Table) (k : Int) (v : Nat) :
    (k, v) ∈ Table.insert qt t k v := by
  unfold Table.insert
  split
  · exact (Table.insertMulti_perm t k v).mem_iff.mpr (List.mem_cons_self _ _)
  · induction t with
    | nil => simp [Table.insertReplace]
    | cons e rest ih =>
      by_cases h1 : e.1 < k
      · simp only [Table.insertReplace, h1, if_true]
        exact List.mem_cons_of_mem _ ih
      · by_cases h2 : k < e.1 <;> simp [Table.insertReplace, h1, h2]

theorem Action.set_entries_single (qt : Qt) (fs : FileSystem) (this : Nat) (a : Action)
    (t : Table) (key : QString) (h : t.Inv) (hk : key.isSingleKey = true) :
    (QKeySequence.at (qt.fromString key.text) 0, this) ∈
        (Action.set qt fs this a t key).eventFilterMap ∧
      (Action.set qt fs this a t key).eventFilterMap.entriesOf this = 1 := by
  have hinv := Action.set_inv qt fs this a t key h
  have hmem : (QKeySequence.at (qt.fromString key.text) 0, this) ∈
      (Action.set qt fs this a t key).eventFilterMap := by
    rw [Action.set_eventFilterMap, hk]
    exact Table.mem_insert_self qt _ _ _
  refine ⟨hmem, ?_⟩
  rw [Table.entriesOf_eq_count]
  exact List.count_eq_one_of_mem hinv.2.2 (List.mem_map.mpr ⟨_, hmem, rfl⟩)

theorem Action.set_entries_other (qt : Qt) (fs : FileSystem) (this : Nat) (a : Action)
    (t : Table) (key : QString) (h : t.Inv) (hk : key.isSingleKey = false) :
    (Action.set qt fs this a t key).eventFilterMap.entriesOf this = 0 := by
  rw [Table.entriesOf_eq_count, Action.set_eventFilterMap, hk]
  exact List.count_eq_zero_of_not_mem (Action.setRemove_not_mem this t h)

theorem Action.set_shortcut (qt : Qt) (fs : FileSystem) (this : Nat) (a : Action)
    (t : Table) (key : QString) :
    (Action.set qt fs this a t key).action.shortcut =
      if (!key.startsWith "gpio" && !key.isNull && key.contains '+') = true
      then qt.fromString key.text else [] := by
  unfold Action.set
  cases h1 : key.startsWith "gpio" <;> cases h2 : key.isNull <;> cases h3 : key.contains '+' <;>
    simp <;> split <;> (try split) <;> rfl

theorem Action.set_valueIsOpen (qt : Qt) (fs : FileSystem) (this : Nat) (a : Action)
    (t : Table) (key : QString) :
    (Action.set qt fs this a t key).action.gpio.valueIsOpen =
      (key.startsWith "gpio" && fs.canOpen (GPIOX_VALUE_PATH key)) := by
  unfold Action.set
  cases h1 : key.startsWith "gpio" <;> cases h2 : key.isNull <;> cases h3 : key.contains '+' <;>
    cases h4 : fs.canOpen (GPIOX_VALUE_PATH key) <;>
    cases h5 : fs.canOpen (GPIOX_ACTIVE_LOW_PATH key) <;> simp

theorem Action.set_watcherFiles (qt : Qt) (fs : FileSystem) (this : Nat) (a : Action)
    (t : Table) (key : QString) :
    (Action.set qt fs this a t key).action.gpio.watcherFiles =
      if (key.startsWith "gpio" && fs.canOpen (GPIOX_VALUE_PATH key) &&
          fs.canOpen (GPIOX_ACTIVE_LOW_PATH key)) = true
      then [GPIOX_VALUE_PATH key] else [] := by
  unfold Action.set
  cases h1 : key.startsWith "gpio" <;> cases h2 : key.isNull <;> cases h3 : key.contains '+' <;>
    cases h4 : fs.canOpen (GPIOX_VALUE_PATH key) <;>
    cases h5 : fs.canOpen (GPIOX_ACTIVE_LOW_PATH key) <;> simp

theorem Action.set_watcherBlocked (qt : Qt) (fs : FileSystem) (this : Nat) (a : Action)
    (t : Table) (key : QString) :
    (Action.set qt fs this a t key).action.gpio.watcherBlocked = a.gpio.watcherBlocked := by
  unfold Action.set
  cases h1 : key.startsWith "gpio" <;> cases h2 : key.isNull <;> cases h3 : key.contains '+' <;>
    cases h4 : fs.canOpen (GPIOX_VALUE_PATH key) <;>
    cases h5 : fs.canOpen (GPIOX_ACTIVE_LOW_PATH key) <;> simp

/-! ## Claims on `ActionEventFilter::eventFilter` -/

/-- C1. With the dispatcher enabled, `eventFilter` returns true exactly when
the event is a key press or key release that is not an auto-repeat and some
binding is registered under the event's key code; in every other case it
returns false and has invoked no callback. -/
theorem eventFilter_enabled_iff (t : Table) (ev : QEvent) :
    ((ActionEventFilter.eventFilter { disabled := false, eventFilterMap := t } ev).1 = true ↔
      (ev.type = EventType.KeyPress ∨ ev.type = EventType.KeyRelease) ∧
        ev.isAutoRepeat = false ∧ ∃ a, (ev.key, a) ∈ t) ∧
    ((ActionEventFilter.eventFilter { disabled := false, eventFilterMap := t } ev).1 = true ∨
      (ActionEventFilter.eventFilter { disabled := false, eventFilterMap := t } ev).2 = []) := by
  have key : ∀ s : ActionState,
      ((ActionEventFilter.dispatchKey { disabled := false, eventFilterMap := t } ev s).1 = true ↔
        ev.isAutoRepeat = false ∧ ∃ a, (ev.key, a) ∈ t) ∧
      ((ActionEventFilter.dispatchKey { disabled := false, eventFilterMap := t } ev s).1 = true ∨
        (ActionEventFilter.dispatchKey { disabled := false, eventFilterMap := t } ev s).2 = []) := by
    intro s
    have hc := ActionEventFilter.dispatchLoop_count (t.find ev.key) ev.key s
    have hn := ActionEventFilter.dispatchLoop_find_nil_iff t ev.key s
    have hex : (∃ a, (ev.key, a) ∈ t) ↔ ¬ ∀ e ∈ t, e.1 ≠ ev.key := by
      constructor
      · rintro ⟨a, ha⟩ hall
        exact hall _ ha rfl
      · intro h
        push_neg at h
        obtain ⟨e, he, hk⟩ := h
        exact ⟨e.2, by rw [← hk]; exact he⟩
    rw [hex, ← hn]
    cases hr : ev.isAutoRepeat with
    | true => simp [ActionEventFilter.dispatchKey, hr]
    | false =>
      by_cases hz : (ActionEventFilter.dispatchLoop (t.find ev.key) ev.key s).1 = []
      · have h0 : (ActionEventFilter.dispatchLoop (t.find ev.key) ev.key s).2 = 0 := by
          rw [hc, hz]; rfl
        simp [ActionEventFilter.dispatchKey, hr, h0, hz]
      · have h0 : (ActionEventFilter.dispatchLoop (t.find ev.key) ev.key s).2 > 0 := by
          rw [hc]
          exact List.length_pos.mpr hz
        simp [ActionEventFilter.dispatchKey, hr, h0, hz]
  by_cases hl : t.length = 0
  · have ht : t = [] := List.length_eq_zero.mp hl
    subst ht
    simp [ActionEventFilter.eventFilter]
  · cases hty : ev.type with
    | KeyPress => simpa [ActionEventFilter.eventFilter, hl, hty] using key ActionState.Activated
    | KeyRelease => simpa [ActionEventFilter.eventFilter, hl, hty] using key ActionState.Deactivated
    | Other => simp [ActionEventFilter.eventFilter, hl, hty]

/-- C2. While the dispatcher is disabled, `eventFilter` returns false and
invokes no callback, for every event and every table; `ActionDialog::showEvent`
puts the dispatcher into that state without touching the table, and
`ActionDialog::closeEvent` ends it. -/
theorem eventFilter_disabled (t : Table) (ev : QEvent) (f : ActionEventFilter) :
    ActionEventFilter.eventFilter { disabled := true, eventFilterMap := t } ev = (false, []) ∧
    ActionEventFilter.eventFilter (ActionDialog.showEvent f) ev = (false, []) ∧
    ActionDialog.showEvent f = { disabled := true, eventFilterMap := f.eventFilterMap } ∧
    ActionDialog.closeEvent (ActionDialog.showEvent f) =
      { disabled := false, eventFilterMap := f.eventFilterMap } := by
  simp [ActionEventFilter.eventFilter, ActionDialog.showEvent, ActionDialog.closeEvent,
    ActionEventFilter.disable, ActionEventFilter.enable]

/-! ## Claims on dispatch order -/

/-- C3, as stated, fails. Two fresh actions 1 and 2 are registered under `F5`,
in that order. A press of `F5` then calls action 2 before action 1 when the
table is a multi-map, and calls action 2 alone when it is a plain map; in
neither case are the callbacks invoked in registration order. -/
theorem dispatch_order_counterexample :
    ActionEventFilter.eventFilter
        { disabled := false, eventFilterMap := runSets qtMulti [setF5 1, setF5 2] [] } pressF5 =
      (true, [(2, ActionState.Activated), (1, ActionState.Activated)]) ∧
    ActionEventFilter.eventFilter
        { disabled := false, eventFilterMap := runSets qtPlain [setF5 1, setF5 2] [] } pressF5 =
      (true, [(2, ActionState.Activated)]) := by
  decide

/-- C3, amended. A sequence of `Action::set` calls registers distinct actions,
none of them held by the table before, as single-key bindings under one key
code. An enabled dispatch of a non-repeat key press or release with that key
code then returns true and invokes the callback of every action the table
holds under that key code, each exactly once, in the iteration order of the
table, with state Activated for a press and Deactivated for a release. When
the table is a multi-map, these are all the registered actions, the most
recently registered first, followed by the actions that held the key code
before. -/
theorem dispatch_registered_order (qt : Qt) (calls : List SetCall) (t : Table) (ev : QEvent)
    (hne : calls ≠ []) (hreach : ReachableTable qt t)
    (hfresh : ∀ c ∈ calls, c.this ∉ t.map Prod.snd)
    (hnd : (calls.map SetCall.this).Nodup)
    (hkey : ∀ c ∈ calls, c.key.isSingleKey = true ∧
      QKeySequence.at (qt.fromString c.key.text) 0 = ev.key)
    (hty : ev.type = EventType.KeyPress ∨ ev.type = EventType.KeyRelease)
    (hrep : ev.isAutoRepeat = false) :
    ActionEventFilter.eventFilter
        { disabled := false, eventFilterMap := runSets qt calls t } ev =
      (true,
        ((runSets qt calls t).valuesOf ev.key).map
          (fun a => (a, if ev.type = EventType.KeyPress then ActionState.Activated
                        else ActionState.Deactivated))) ∧
    (qt.multi = true →
      (runSets qt calls t).valuesOf ev.key =
        (calls.map SetCall.this).reverse ++ t.valuesOf ev.key) := by
  have hinv := ReachableTable.inv qt t hreach
  have hty2 : ev.type ≠ EventType.Other := by
    rcases hty with h | h <;> rw [h] <;> decide
  have hst : keyState ev.type = (if ev.type = EventType.KeyPress then ActionState.Activated
      else ActionState.Deactivated) := by
    rcases hty with h | h <;> rw [h] <;> rfl
  have hsome : (runSets qt calls t).valuesOf ev.key ≠ [] := by
    cases hm : qt.multi with
    | true =>
      rw [runSets_valuesOf_multi qt hm ev.key calls t hfresh hnd hkey]
      simp [hne]
    | false =>
      rw [runSets_valuesOf_plain qt hm ev.key calls t hne hinv
        (ReachableTable.keysDistinct qt t hm hreach) hfresh hnd hkey]
      simp
  refine ⟨?_, fun hm => runSets_valuesOf_multi qt hm ev.key calls t hfresh hnd hkey⟩
  rw [ActionEventFilter.eventFilter_sorted _ ev (runSets_inv qt calls t hinv).1 hty2 hrep, hst]
  simp [hsome]

/-- C3, amended, at a concrete input: actions 1 and 2 registered under `F5`
in a multi-map table; a press of `F5` calls 2, then 1. -/
theorem dispatch_registered_order_witness :
    ActionEventFilter.eventFilter
        { disabled := false, eventFilterMap := runSets qtMulti [setF5 1, setF5 2] [] } pressF5 =
      (true, [(2, ActionState.Activated), (1, ActionState.Activated)]) ∧
    (runSets qtMulti [setF5 1, setF5 2] []).valuesOf pressF5.key = [2, 1] :=
  ⟨(dispatch_registered_order qtMulti [setF5 1, setF5 2] [] pressF5 (List.cons_ne_nil _ _)
      ReachableTable.init (by simp) (by decide) (by decide) (Or.inl rfl) rfl).1.trans
      (by decide),
   ((dispatch_registered_order qtMulti [setF5 1, setF5 2] [] pressF5 (List.cons_ne_nil _ _)
      ReachableTable.init (by simp) (by decide) (by decide) (Or.inl rfl) rfl).2 rfl).trans
      (by decide)⟩

/-! ## Claims on `Action::set` -/

/-- C4. On a dispatcher table reachable through `Action::set` calls, for every
action in every state and every identifier, after `Action::set`:
a successful GPIO binding has an open value handle and exactly one watched
path, no standalone shortcut key and no table entry for the action;
a keyboard binding has no open value handle and no watched path, and is a
standalone shortcut without a table entry when the identifier contains `+`,
and exactly one table entry without a shortcut otherwise.  In every case the
action has at most one table entry, live GPIO resources exclude shortcut and
table entry, and a shortcut excludes a table entry. -/
theorem set_exclusive (qt : Qt) (fs : FileSystem) (this : Nat) (a : Action) (t : Table)
    (key : QString) (r : SetResult) (hr : r = Action.set qt fs this a t key)
    (hreach : ReachableTable qt t) :
    (key.startsWith "gpio" = true → fs.canOpen (GPIOX_VALUE_PATH key) = true →
        fs.canOpen (GPIOX_ACTIVE_LOW_PATH key) = true →
      r.action.gpio.valueIsOpen = true ∧ r.action.gpio.watcherFiles = [GPIOX_VALUE_PATH key] ∧
        r.action.shortcut = [] ∧ r.eventFilterMap.entriesOf this = 0) ∧
    (key.startsWith "gpio" = false → key.isNull = false →
      r.action.gpio.valueIsOpen = false ∧ r.action.gpio.watcherFiles = [] ∧
        (key.contains '+' = true →
          r.action.shortcut = qt.fromString key.text ∧ r.eventFilterMap.entriesOf this = 0) ∧
        (key.contains '+' = false →
          r.action.shortcut = [] ∧ r.eventFilterMap.entriesOf this = 1)) ∧
    r.eventFilterMap.entriesOf this ≤ 1 ∧
    (r.action.gpio.valueIsOpen = true ∨ r.action.gpio.watcherFiles ≠ [] →
      r.action.shortcut = [] ∧ r.eventFilterMap.entriesOf this = 0) ∧
    (r.action.shortcut ≠ [] → r.eventFilterMap.entriesOf this = 0) := by
  subst hr
  have hinv := ReachableTable.inv qt t hreach
  have hS := Action.set_shortcut qt fs this a t key
  have hO := Action.set_valueIsOpen qt fs this a t key
  have hW := Action.set_watcherFiles qt fs this a t key
  have h1 := Action.set_entries_single qt fs this a t key hinv
  have h0 := Action.set_entries_other qt fs this a t key hinv
  rw [hS, hO, hW]
  unfold QString.isSingleKey at h1 h0
  cases hg : key.startsWith "gpio" <;> cases hn : key.isNull <;>
    cases hp : key.contains '+' <;> simp [hg, hn, hp] at h1 h0 ⊢ <;>
    simp [h0, h1] <;> exact fun x y => ⟨x, y⟩

/-- C4 at a concrete input: action 1, registered under `F5` in a multi-map
table, is rebound to `gpio5`. -/
theorem set_exclusive_witness :
    (Action.set qtMulti (fsReads [49]) 1 Action.new
        (runSets qtMulti [setF5 1] []) (some "gpio5")).action.gpio.valueIsOpen = true ∧
    (Action.set qtMulti (fsReads [49]) 1 Action.new
        (runSets qtMulti [setF5 1] []) (some "gpio5")).action.gpio.watcherFiles =
      ["/sys/class/gpio/gpio5/value"] ∧
    (Action.set qtMulti (fsReads [49]) 1 Action.new
        (runSets qtMulti [setF5 1] []) (some "gpio5")).action.shortcut = [] ∧
    (Action.set qtMulti (fsReads [49]) 1 Action.new
        (runSets qtMulti [setF5 1] []) (some "gpio5")).eventFilterMap.entriesOf 1 = 0 :=
  (set_exclusive qtMulti (fsReads [49]) 1 Action.new (runSets qtMulti [setF5 1] [])
    (some "gpio5") _ rfl
    (ReachableTable.step (fsReads [49]) 1 Action.new [] (some "F5") ReachableTable.init)).1
    (by decide) (by decide) (by decide)

/-- C5, as stated, fails. The empty, non-null identifier does not start with
`gpio`, and `Action::set` leaves the action with a dispatcher-table entry
(under key code 0, the first key of the empty sequence). -/
theorem set_empty_identifier_counterexample :
    QString.startsWith (some "") "gpio" = false ∧
    (Action.set qtMulti (fsReads [49]) 1 Action.new [] (some "")).eventFilterMap = [(0, 1)] ∧
    (Action.set qtMulti (fsReads [49]) 1 Action.new [] (some "")).eventFilterMap.entriesOf 1 = 1 ∧
    (Action.set qtPlain (fsReads [49]) 1 Action.new [] (some "")).eventFilterMap.entriesOf 1 = 1 := by
  decide

/-- C5, amended. On a reachable dispatcher table, for an identifier that does
not begin with `gpio`: a null identifier leaves the action with neither a
table entry nor a shortcut key; a non-empty identifier containing `+` sets the
standalone shortcut to its parsed sequence and leaves no table entry; a
non-empty identifier without `+` leaves exactly one table entry, keyed by the
first key code of its parsed sequence, and no shortcut key. -/
theorem set_keyboard_classification (qt : Qt) (fs : FileSystem) (this : Nat) (a : Action)
    (t : Table) (key : QString) (r : SetResult) (hr : r = Action.set qt fs this a t key)
    (hreach : ReachableTable qt t) (hg : key.startsWith "gpio" = false) :
    (key = none → r.action.shortcut = [] ∧ r.eventFilterMap.entriesOf this = 0) ∧
    (∀ s : String, key = some s → s ≠ "" → s.toList.contains '+' = true →
      r.action.shortcut = qt.fromString s ∧ r.eventFilterMap.entriesOf this = 0) ∧
    (∀ s : String, key = some s → s ≠ "" → s.toList.contains '+' = false →
      (QKeySequence.at (qt.fromString s) 0, this) ∈ r.eventFilterMap ∧
        r.eventFilterMap.entriesOf this = 1 ∧ r.action.shortcut = []) := by
  subst hr
  have hinv := ReachableTable.inv qt t hreach
  have hS := Action.set_shortcut qt fs this a t key
  have h1 := Action.set_entries_single qt fs this a t key hinv
  have h0 := Action.set_entries_other qt fs this a t key hinv
  rw [hS]
  unfold QString.isSingleKey at h1 h0
  refine ⟨?_, ?_, ?_⟩
  · intro hk
    subst hk
    simp [QString.startsWith, QString.isNull, QString.contains] at h0 ⊢
    exact h0
  · intro s hk _ hp
    subst hk
    have hp2 : QString.contains (some s) '+' = true := hp
    simp [hg, QString.isNull, hp2] at h0 ⊢
    exact ⟨rfl, h0⟩
  · intro s hk _ hp
    subst hk
    have hp2 : QString.contains (some s) '+' = false := hp
    simp [hg, QString.isNull, hp2] at h1 ⊢
    exact h1

/-- C5, amended, at a concrete input: `"F5"` on a fresh action and the empty
table gives one table entry under the code of `F5` and no shortcut. -/
theorem set_keyboard_classification_witness :
    ((0x01000034 : Int), 1) ∈
        (Action.set qtMulti (fsReads [49]) 1 Action.new [] (some "F5")).eventFilterMap ∧
    (Action.set qtMulti (fsReads [49]) 1 Action.new [] (some "F5")).eventFilterMap.entriesOf 1 = 1 ∧
    (Action.set qtMulti (fsReads [49]) 1 Action.new [] (some "F5")).action.shortcut = [] :=
  (set_keyboard_classification qtMulti (fsReads [49]) 1 Action.new [] (some "F5") _ rfl
    ReachableTable.init (by decide)).2.2 "F5" rfl (by decide) (by decide)

/-! ## Claims on the GPIO change handler -/

/-- C6. When a change notification reaches the handler and the value file
yields a first byte `b`, the callback is invoked, once and with state
Triggered, if and only if the value handle is open and `b` equals the cached
active-low byte; with cached `'1'` a read of `'1'` triggers and a read of `'0'`
does not, with cached `'0'` a read of `'0'` triggers and a read of `'1'` does
not; with the handle closed the callback is not invoked, whatever is read. -/
theorem fileChanged_polarity (a : Action) (b : Nat) (rest rd : List Nat) :
    ((a.fileChanged (b :: rest)).map HandlerResult.calls =
      some (if a.gpio.valueIsOpen = true ∧ a.gpio.active_low = b
            then [ActionState.Triggered] else [])) ∧
    ((Action.fileChanged
        { a with gpio := { a.gpio with valueIsOpen := true, active_low := 49 } } [49]).map
      HandlerResult.calls = some [ActionState.Triggered]) ∧
    ((Action.fileChanged
        { a with gpio := { a.gpio with valueIsOpen := true, active_low := 49 } } [48]).map
      HandlerResult.calls = some []) ∧
    ((Action.fileChanged
        { a with gpio := { a.gpio with valueIsOpen := true, active_low := 48 } } [48]).map
      HandlerResult.calls = some [ActionState.Triggered]) ∧
    ((Action.fileChanged
        { a with gpio := { a.gpio with valueIsOpen := true, active_low := 48 } } [49]).map
      HandlerResult.calls = some []) ∧
    Action.fileChanged { a with gpio := { a.gpio with valueIsOpen := false } } rd =
      some { action := { a with gpio := { a.gpio with valueIsOpen := false } }
             calls := []
             unmaskScheduled := false } := by
  refine ⟨?_, ?_, ?_, ?_, ?_, ?_⟩
  · cases ho : a.gpio.valueIsOpen with
    | false => simp [Action.fileChanged, ho]
    | true =>
      by_cases hb : a.gpio.active_low = b
      · simp [Action.fileChanged, ho, hb]
      · simp [Action.fileChanged, ho, hb]
  all_goals simp [Action.fileChanged]

/-- C7. An armed GPIO action (handle open, watcher not masked) receives
`N ≥ 1` change notifications whose reads all start with the cached polarity
byte, and the unmask does not run in between. The callback is then invoked
exactly once: the first notification masks the watcher, fires the callback and
schedules the unmask, and the masked watcher drops every further notification;
the action ends masked. -/
theorem debounce_once (a : Action) (rds : List (List Nat)) (rd : List Nat)
    (hopen : a.gpio.valueIsOpen = true) (hmask : a.gpio.watcherBlocked = false)
    (hne : rds ≠ []) (hmatch : ∀ x ∈ rds, x.head? = some a.gpio.active_low) :
    a.notifyAll rds =
      some ({ a with gpio := { a.gpio with watcherBlocked := true } },
        [ActionState.Triggered]) ∧
    a.notify (rds.head hne) =
      some { action := { a with gpio := { a.gpio with watcherBlocked := true } }
             calls := [ActionState.Triggered]
             unmaskScheduled := true } ∧
    Action.notify { a with gpio := { a.gpio with watcherBlocked := true } } rd =
      some { action := { a with gpio := { a.gpio with watcherBlocked := true } }
             calls := []
             unmaskScheduled := false } := by
  have hdrop : ∀ (l : List (List Nat)) (m : Action), m.gpio.watcherBlocked = true →
      m.notifyAll l = some (m, []) := by
    intro l
    induction l with
    | nil => intro m _; rfl
    | cons x xs ih =>
      intro m hm
      simp [Action.notifyAll, Action.notify, hm, ih m hm]
  cases rds with
  | nil => exact absurd rfl hne
  | cons x xs =>
    have hx := hmatch x (List.mem_cons_self _ _)
    cases x with
    | nil => simp at hx
    | cons b bs =>
      have hb : a.gpio.active_low = b := by
        simp only [List.head?_cons, Option.some.injEq] at hx
        exact hx.symm
      have hfirst : a.notify (b :: bs) =
          some { action := { a with gpio := { a.gpio with watcherBlocked := true } }
                 calls := [ActionState.Triggered]
                 unmaskScheduled := true } := by
        simp [Action.notify, Action.fileChanged, hmask, hopen, hb]
      refine ⟨?_, hfirst, by simp [Action.notify]⟩
      simp only [Action.notifyAll, hfirst]
      rw [hdrop xs _ rfl]
      rfl

/-- C7 at a concrete input: three matching notifications on the armed action
bound to `gpio5` invoke the callback once. -/
theorem debounce_once_witness :
    armedGpio5.notifyAll [[49], [49], [49]] =
      some ({ armedGpio5 with gpio := { armedGpio5.gpio with watcherBlocked := true } },
        [ActionState.Triggered]) :=
  (debounce_once armedGpio5 [[49], [49], [49]] [] (by decide) (by decide) (by simp)
    (by decide)).1

/-! ## Failure of the polarity read, frame of the table, pending unmask -/

/-- C8, evaluated on the code. With the identifier `gpio5`, a value file that
opens and a polarity file that does not open, `Action::set` returns with the
value handle open (no path watched). With a polarity file that opens and
yields no byte, `Action::set` indexes the empty byte array, caches 0 as the
polarity, and leaves the handle open and the value path watched. -/
theorem set_gpio_polarity_failure :
    QString.startsWith (some "gpio5") "gpio" = true ∧
    fsNoPolarity.canOpen (GPIOX_VALUE_PATH (some "gpio5")) = true ∧
    fsNoPolarity.canOpen (GPIOX_ACTIVE_LOW_PATH (some "gpio5")) = false ∧
    (Action.set qtMulti fsNoPolarity 1 Action.new [] (some "gpio5")).action.gpio.valueIsOpen
      = true ∧
    (Action.set qtMulti fsNoPolarity 1 Action.new [] (some "gpio5")).action.gpio.watcherFiles
      = [] ∧
    (Action.set qtMulti (fsReads []) 1 Action.new [] (some "gpio5")).outOfRange = true ∧
    (Action.set qtMulti (fsReads []) 1 Action.new [] (some "gpio5")).action.gpio.valueIsOpen
      = true ∧
    (Action.set qtMulti (fsReads []) 1 Action.new [] (some "gpio5")).action.gpio.watcherFiles
      = ["/sys/class/gpio/gpio5/value"] ∧
    (Action.set qtMulti (fsReads []) 1 Action.new [] (some "gpio5")).action.gpio.active_low
      = 0 := by
  decide

/-- C9, evaluated on the code. Actions 1 and 2 are both registered under `F5`
in a multi-map table; unbinding action 1 (null identifier), or rebinding it to
`F1`, removes the entry of action 2 as well. With a plain map, action 2 is
registered under `F5` and binding action 1 to `F5` overwrites the entry of
action 2. -/
theorem set_removes_other_entry :
    runSets qtMulti [setF5 2, setF5 1] [] = [(0x01000034, 1), (0x01000034, 2)] ∧
    (Action.set qtMulti (fsReads [49]) 1 Action.new
        [(0x01000034, 1), (0x01000034, 2)] none).eventFilterMap = [] ∧
    (Action.set qtMulti (fsReads [49]) 1 Action.new
        [(0x01000034, 1), (0x01000034, 2)] (some "F1")).eventFilterMap = [(0x01000030, 1)] ∧
    runSets qtPlain [setF5 2] [] = [(0x01000034, 2)] ∧
    (Action.set qtPlain (fsReads [49]) 1 Action.new
        [(0x01000034, 2)] (some "F5")).eventFilterMap = [(0x01000034, 1)] := by
  decide

/-- C10, as stated, fails. The action bound to `gpio5` has just triggered
(watcher masked, unmask pending) and is rebound to `gpio7`, successfully. The
rebound action is still masked: a polarity-matching change notification is
dropped without invoking the callback. When the old unmask fires it changes
the state of the new binding (the mask is cleared). -/
theorem pending_unmask_counterexample :
    armedGpio5.notify [49] =
      some { action := triggeredGpio5, calls := [ActionState.Triggered],
             unmaskScheduled := true } ∧
    (Action.set qtMulti (fsReads [49]) 1 triggeredGpio5 [] (some "gpio7")).action.gpio.valueIsOpen
      = true ∧
    (Action.set qtMulti (fsReads [49]) 1 triggeredGpio5 [] (some "gpio7")).action.gpio.watcherFiles
      = ["/sys/class/gpio/gpio7/value"] ∧
    ((Action.set qtMulti (fsReads [49]) 1 triggeredGpio5 [] (some "gpio7")).action.notify
        [49]).map HandlerResult.calls = some [] ∧
    (Action.set qtMulti (fsReads [49]) 1 triggeredGpio5 [] (some "gpio7")).action.unmask ≠
      (Action.set qtMulti (fsReads [49]) 1 triggeredGpio5 [] (some "gpio7")).action := by
  decide

/-- C10, amended. A GPIO action has just triggered (watcher masked, unmask
pending) and `Action::set` tears it down or rebinds it before the unmask
fires. `Action::set` leaves the mask in force: until the old unmask fires every
change notification is dropped, also after a successful GPIO rebind. The
unmask, when it fires, clears the mask and changes nothing else; from then on
a binding whose value handle is open is Armed: a notification whose read
starts with the cached polarity byte invokes the callback once. -/
theorem pending_unmask_after_set (qt : Qt) (fs : FileSystem) (this : Nat) (a : Action)
    (t : Table) (key : QString) (r : Action) (rd : List Nat)
    (hr : r = (Action.set qt fs this a t key).action)
    (hmask : a.gpio.watcherBlocked = true) :
    r.gpio.watcherBlocked = true ∧
    r.notify rd = some { action := r, calls := [], unmaskScheduled := false } ∧
    r.unmask.gpio.watcherBlocked = false ∧
    { r.unmask with gpio := { r.unmask.gpio with watcherBlocked := true } } = r ∧
    (r.gpio.valueIsOpen = true → rd.head? = some r.gpio.active_low →
      (r.unmask.notify rd).map HandlerResult.calls = some [ActionState.Triggered]) := by
  have hb : r.gpio.watcherBlocked = true := by
    rw [hr, Action.set_watcherBlocked]
    exact hmask
  refine ⟨hb, by simp [Action.notify, hb], rfl, ?_, ?_⟩
  · obtain ⟨sc, ⟨wf, wb, vf, vo, al⟩, k⟩ := r
    simp only at hb
    simp [Action.unmask, hb]
  · intro ho hrd
    cases rd with
    | nil => simp at hrd
    | cons b bs =>
      simp only [List.head?_cons, Option.some.injEq] at hrd
      simp [Action.notify, Action.unmask, Action.fileChanged, ho, hrd]

/-- C10, amended, at a concrete input: the triggered `gpio5` action rebound to
`gpio7` stays masked, and after the unmask a matching notification fires. -/
theorem pending_unmask_after_set_witness :
    (Action.set qtMulti (fsReads [49]) 1 triggeredGpio5 [] (some "gpio7")).action.gpio.watcherBlocked
      = true ∧
    ((Action.set qtMulti (fsReads [49]) 1 triggeredGpio5 [] (some "gpio7")).action.unmask.notify
      [49]).map HandlerResult.calls = some [ActionState.Triggered] :=
  ⟨(pending_unmask_after_set qtMulti (fsReads [49]) 1 triggeredGpio5 [] (some "gpio7") _ [49]
      rfl (by decide)).1,
   (pending_unmask_after_set qtMulti (fsReads [49]) 1 triggeredGpio5 [] (some "gpio7") _ [49]
      rfl (by decide)).2.2.2.2 (by decide) (by decide)⟩

end Dash
